import Mathlib

/-!
# Verification of the JAIB memory and conversation-window subsystem

Shallow embedding of the memory store / index / retriever
(`src/memory.py`), the auto-memory extractor (`src/memory.py`), the
conversation window manager (`src/conversation_manager.py`) and the
failure path of a turn (`main.py`, `_process_user_input`).

Modelling conventions:
* Python strings are Lean `String`s (ASCII is the intended alphabet;
  `str.lower` is modelled with `Char.toLower`, which agrees on ASCII).
* The memory file is a list of parsed line outcomes (`LogLine`):
  `json.loads` on a line either yields a record, fails, or the line is
  whitespace-only.  Field defaults (`m.get("ts","")` etc.) are folded
  into the record at parse time.
* Python `list.sort`/`sorted` are stable; they are modelled with
  `List.insertionSort`, which is stable for the given total preorder.
* Python `set` iteration order is unspecified; sets are modelled as
  first-occurrence-ordered deduplicated lists (`dedupList`).
* The external completion call, logging sinks and the file system are
  out of scope (per the spec they are opaque collaborators); functions
  are parameterised over their inputs instead.
-/

/-- Remove duplicates keeping first occurrences (model of building a
Python `set` from a list, with a deterministic iteration order). -/
def dedupList (xs : List String) : List String :=
  xs.foldl (fun acc x => if x ∈ acc then acc else acc ++ [x]) []

/-! ## Conversation manager (`src/conversation_manager.py`) -/

/-- One chat message `{"role": ..., "content": ...}`. -/
structure Message where
  role : String
  content : String
deriving DecidableEq, Repr

/-- The mutable state of `ConversationManager`: `self.messages`,
`self.conversation_summary`, `self.turn_count`.  `system_prompt` is the
stored prompt; `max_context_length` is the constant 50. -/
structure ConvState where
  system_prompt : String
  messages : List Message
  conversation_summary : String
  turn_count : Int
deriving DecidableEq, Repr

/-- Fresh conversation state (`__init__`). -/
def ConvState.init (systemPrompt : String) : ConvState :=
  { system_prompt := systemPrompt
    messages := [⟨"system", systemPrompt⟩]
    conversation_summary := ""
    turn_count := 0 }

/-- Content of the synthetic summary: the code joins the deduplicated
user contents and the deduplicated assistant contents, each truncated
to 100 characters, with " | " (`_summarize_old_messages`, the
`summary_parts` block).  Python iterates a `set` here; we fix
first-occurrence order. -/
def summaryText (old : List Message) : String :=
  let user_inputs := (old.filter (fun m => m.role == "user")).map Message.content
  let bot_responses := (old.filter (fun m => m.role == "assistant")).map Message.content
  let parts :=
    (if user_inputs.isEmpty then [] else
      ["User mentioned topics like: " ++
        (String.intercalate ", " (dedupList user_inputs)).take 100 ++ "..."]) ++
    (if bot_responses.isEmpty then [] else
      ["Bot shared information about: " ++
        (String.intercalate ", " (dedupList bot_responses)).take 100 ++ "..."])
  String.intercalate " | " parts

/-- `_summarize_old_messages`: keep `messages[0]` and the last 20
messages, collapse `messages[1:-20]` into one system summary message
(only when that slice is nonempty).  Returns the new message list and
the new `conversation_summary`.  Only ever called with a nonempty
list (the caller just appended); on `[]` we return the input. -/
def _summarize_old_messages (msgs : List Message) (summary : String) :
    List Message × String :=
  match msgs with
  | [] => ([], summary)
  | m0 :: _ =>
    let recent_messages := msgs.drop (msgs.length - 20)
    let old_messages := (msgs.drop 1).take (msgs.length - 21)
    if old_messages.isEmpty then (msgs, summary)
    else
      let s := summaryText old_messages
      (m0 :: ⟨"system", "Earlier in the conversation: " ++ s⟩ :: recent_messages, s)

/-- `add_message`: append, bump `turn_count`, and compact when the
list length exceeds `max_context_length = 50`.  (The logging side
effect is external and elided.) -/
def add_message (st : ConvState) (role content : String) : ConvState :=
  let msgs := st.messages ++ [⟨role, content⟩]
  let turn := st.turn_count + 1
  if msgs.length > 50 then
    let p := _summarize_old_messages msgs st.conversation_summary
    { st with messages := p.1, conversation_summary := p.2, turn_count := turn }
  else
    { st with messages := msgs, turn_count := turn }

/-- `rewind_last_exchange`: with fewer than 3 messages, fail and leave
the state unchanged; otherwise pop the last two messages and decrement
`turn_count` by one.  Returns (success flag, new state). -/
def rewind_last_exchange (st : ConvState) : Bool × ConvState :=
  if st.messages.length < 3 then (false, st)
  else
    (true, { st with
              messages := st.messages.dropLast.dropLast
              turn_count := st.turn_count - 1 })

/-- The memory limit computed in `get_memory_context`:
`min(8, max(3, 10 - (turn_count // 5)))` (Python `//` is floor
division). -/
def memory_limit (turn_count : Int) : Int :=
  min 8 (max 3 (10 - turn_count.fdiv 5))

/-- Failure path of `_process_user_input` (`main.py`): the user payload
(memory context prepended by the caller) has been appended via
`add_message`, the external completion call raised, and the handler
pops the last message directly off `conversation_manager.messages`
(without touching `turn_count` or the summary). -/
def processTurnFailure (st : ConvState) (user_payload : String) : ConvState :=
  let st1 := add_message st "user" user_payload
  { st1 with messages := st1.messages.dropLast }

/-! ## Memory store (`src/memory.py`) -/

/-- Python whitespace (`str.strip`, `\s` in regexes), ASCII fragment. -/
def isPySpace (c : Char) : Bool :=
  c == ' ' || c == '\t' || c == '\n' || c == '\r' ||
  c == Char.ofNat 11 || c == Char.ofNat 12

/-- `text.strip()`: drop leading and trailing whitespace. -/
def stripStr (s : String) : String :=
  ⟨((s.data.dropWhile isPySpace).reverse.dropWhile isPySpace).reverse⟩

/-- `text.lower()` (ASCII). -/
def lowerStr (s : String) : String := ⟨s.data.map Char.toLower⟩

/-- A regex word character `\w` (ASCII fragment): letters, digits, `_`. -/
def isWordChar (c : Char) : Bool := c.isAlphanum || c == '_'

/-- Maximal runs of word characters, accumulator-style
(the matches of `\w+` scanned left to right). -/
def wordRunsAux (cur : List Char) : List Char → List (List Char)
  | [] => if cur.isEmpty then [] else [cur.reverse]
  | c :: cs =>
    if isWordChar c then wordRunsAux (c :: cur) cs
    else if cur.isEmpty then wordRunsAux [] cs
    else cur.reverse :: wordRunsAux [] cs

/-- `re.findall(r'\b\w{4,}\b', s)`: the maximal word-character runs of
length at least 4, in order of occurrence. -/
def wordsGE4 (s : String) : List String :=
  ((wordRunsAux [] s.data).filter (fun r => 4 ≤ r.length)).map (⟨·⟩)

/-- One parsed memory record.  The accessor defaults of the source
(`m.get("ts", "")`, `m.get("note", "")`, `m.get("importance", 5)`)
are folded into the fields at parse time. -/
structure MemRecord where
  ts : String
  note : String
  tags : List String
  importance : Int
deriving DecidableEq, Repr

/-- Parse outcome of one line of the memory file:
a well-formed JSON record, a malformed (non-blank) line on which
`json.loads` raises, or a whitespace-only line. -/
inductive LogLine where
  | good (r : MemRecord)
  | bad
  | blank
deriving DecidableEq, Repr

/-- The fixed keyword table of `_calculate_importance`. -/
def important_keywords : List String :=
  ["important", "crucial", "vital", "essential", "critical",
   "remember", "never forget", "always", "must", "promise",
   "name", "address", "phone", "birthday", "anniversary"]

/-- The fixed personal-disclosure table of `_calculate_importance`.
All eight regexes are literal strings, so `re.search` is substring
search. -/
def personal_patterns : List String :=
  ["my name is", "i live in", "i was born", "i work at",
   "my favorite", "i love", "i hate", "i am afraid of"]

/-- Does `needle` occur as a contiguous run in `hay`?  Scans every
suffix for a prefix match. -/
def containsChars (needle : List Char) : List Char → Bool
  | [] => needle.isEmpty
  | c :: cs => needle.isPrefixOf (c :: cs) || containsChars needle cs

/-- `needle in hay` / `re.search(literal, hay)`: substring test. -/
def containsSub (hay needle : String) : Bool :=
  containsChars needle.data hay.data

/-- `_calculate_importance`: base 5, +2 per keyword present in the
lowercased text, +1 per personal pattern matching, capped at 10. -/
def _calculate_importance (text : String) : Int :=
  let text_lower := lowerStr text
  let importance : Int :=
    5 + 2 * (important_keywords.filter (containsSub text_lower)).length
      + (personal_patterns.filter (containsSub text_lower)).length
  min importance 10

/-- `append_memory`: append one record line to the log.  The wall
clock is external, so the timestamp is a parameter. -/
def append_memory (log : List LogLine) (now text : String)
    (tags : List String) : List LogLine :=
  log ++ [LogLine.good
    { ts := now
      note := stripStr text
      tags := tags
      importance := _calculate_importance text }]

/-- The list comprehension of `load_all_memories`:
`[json.loads(line) for line in f if line.strip()]`.  Whitespace-only
lines are filtered out before parsing; the first malformed line makes
the whole comprehension raise (`none`). -/
def parseAllLines : List LogLine → Option (List MemRecord)
  | [] => some []
  | LogLine.blank :: ls => parseAllLines ls
  | LogLine.bad :: _ => none
  | LogLine.good r :: ls => (parseAllLines ls).map (r :: ·)

/-- Python string `<=`: lexicographic by code point (executable; the
built-in `String` order of Lean agrees but its decision procedure does
not reduce). -/
def strLeB : List Char → List Char → Bool
  | [], _ => true
  | _ :: _, [] => false
  | x :: xs, y :: ys =>
    if x.toNat < y.toNat then true
    else if x.toNat = y.toNat then strLeB xs ys
    else false

/-- The sort key of `load_all_memories`:
`lambda m: (-m.get("importance", 5), m.get("ts", ""))`, compared the
way Python compares tuples (lexicographically, strings by code
point). -/
def memKeyLe (a b : MemRecord) : Prop :=
  -a.importance < -b.importance ∨
    (-a.importance = -b.importance ∧ strLeB a.ts.data b.ts.data = true)

instance (a b : MemRecord) : Decidable (memKeyLe a b) :=
  inferInstanceAs (Decidable (_ ∨ _))

/-- `load_all_memories` (cache-miss path; the mtime cache is elided —
every call in the verified scenarios follows an append, which
invalidates it): parse all lines, return `[]` if anything raised,
otherwise stable-sort by `(-importance, ts)` ascending. -/
def load_all_memories (log : List LogLine) : List MemRecord :=
  match parseAllLines log with
  | none => []
  | some memories => memories.insertionSort memKeyLe

/-- `load_recent_memories`: prefix of `load_all_memories`. -/
def load_recent_memories (log : List LogLine) (limit : Nat) : List MemRecord :=
  (load_all_memories log).take limit

/-! ## Memory index and search (`src/memory.py`) -/

/-- Contribution of one log line to the index entry of keyword `w`
(`_build_memory_index` body): a well-formed record with a nonempty
timestamp whose lowercased note contains `w` as a `\b\w{4,}\b` token
contributes its timestamp.  (The per-line `set(words)` deduplication
only collapses repeats of `w` inside one note, which membership
already ignores.) -/
def lineTs (w : String) : LogLine → Option String
  | LogLine.good r =>
    if r.ts ≠ "" ∧ w ∈ wordsGE4 (lowerStr r.note) then some r.ts else none
  | _ => none

/-- `keywords_index[w]` after `_build_memory_index`: the set of
timestamps of lines mentioning `w`, as a first-occurrence-ordered
deduplicated list (Python stores a `set`). -/
def keywords_index (log : List LogLine) (w : String) : List String :=
  dedupList (log.filterMap (lineTs w))

/-- `memory_scores[timestamp] += 1` on a `defaultdict(int)`, modelled
on an insertion-ordered association list. -/
def bumpScore (acc : List (String × Nat)) (ts : String) : List (String × Nat) :=
  if acc.any (fun p => p.1 == ts) then
    acc.map (fun p => if p.1 == ts then (p.1, p.2 + 1) else p)
  else acc ++ [(ts, 1)]

/-- The `memory_scores` accumulation of `search_memories`: for every
(deduplicated) query token, bump every timestamp indexed under it. -/
def memory_scores (log : List LogLine) (query : String) : List (String × Nat) :=
  (dedupList (wordsGE4 (lowerStr query))).foldl
    (fun acc w => (keywords_index log w).foldl bumpScore acc) []

/-- `sorted(memory_scores.items(), key=lambda x: x[1], reverse=True)`:
stable descending sort by score. -/
def scoreGe (a b : String × Nat) : Prop := b.2 ≤ a.2

instance (a b : String × Nat) : Decidable (scoreGe a b) :=
  inferInstanceAs (Decidable (_ ≤ _))

/-- `memory_by_timestamp[ts]`: a Python dict comprehension keeps the
last record for a duplicated key. -/
def memLookup (memories : List MemRecord) (ts : String) : Option MemRecord :=
  (memories.filter (fun m => m.ts == ts)).getLast?

/-- `search_memories(query, limit)`: score timestamps by query-token
overlap, sort by descending score (stable), take the top `limit`, and
resolve each timestamp against a fresh ts→record map, dropping
danglers.  (As in the source, the index is the one rebuilt from the
current log by the preceding `append_memory`.) -/
def search_memories (log : List LogLine) (query : String) (limit : Nat := 5) :
    List MemRecord :=
  let sorted_timestamps := (memory_scores log query).insertionSort scoreGe
  let all_memories := load_all_memories log
  (sorted_timestamps.take limit).filterMap (fun p => memLookup all_memories p.1)

/-! ## Auto-memory extractor (`src/memory.py`, `extract_auto_memories`) -/

/-- `re.split(r'(?<=[.!?])\s+', text)`: pieces are delimited by the
maximal whitespace runs whose preceding character is `.`, `!` or `?`.
`acc` is the current piece, reversed; its head is the character the
lookbehind inspects.  `skip` is true while the matched `\s+` run is
still being consumed (the lookbehind cannot fire again until a
non-whitespace character starts the next piece). -/
def splitSentencesAux (acc : List Char) (skip : Bool) : List Char → List String
  | [] => [⟨acc.reverse⟩]
  | c :: cs =>
    if skip then
      if isPySpace c then splitSentencesAux acc true cs
      else splitSentencesAux [c] false cs
    else
      match acc with
      | [] => splitSentencesAux [c] false cs
      | p :: _ =>
        if (p == '.' || p == '!' || p == '?') && isPySpace c then
          (⟨acc.reverse⟩ : String) :: splitSentencesAux [] true cs
        else splitSentencesAux (c :: acc) false cs

/-- Sentence splitting of `extract_auto_memories` (step 1). -/
def splitSentences (text : String) : List String :=
  splitSentencesAux [] false text.data

/-- An ASCII apostrophe, for the contraction patterns. -/
def apos : String := ⟨[Char.ofNat 39]⟩

/-- The tails of the pattern `I have (a|an) .* (experience|story|memory)`
after the `.*` gap. -/
def iHaveTails : List (List Char) :=
  [" experience".data, " story".data, " memory".data]

/-- Match `.*` followed by one of `tails`: walk forward over
non-newline characters (`.` does not match a newline) until some tail
is a prefix of the rest. -/
def gapThen (tails : List (List Char)) : List Char → Bool
  | [] => tails.any List.isEmpty
  | c :: cs =>
    tails.any (fun w => w.isPrefixOf (c :: cs)) ||
    (!(c == '\n') && gapThen tails cs)

/-- `re.search` for `I have (a|an) .* (experience|story|memory)` on a
lowercased character list: try every start position. -/
def iHaveAt : List Char → Bool
  | [] => false
  | c :: cs =>
    ("i have a ".data.isPrefixOf (c :: cs) && gapThen iHaveTails ((c :: cs).drop 9)) ||
    ("i have an ".data.isPrefixOf (c :: cs) && gapThen iHaveTails ((c :: cs).drop 10)) ||
    iHaveAt cs

/-- The `memory_indicators` family (case-insensitive search, so `t` is
the lowercased sentence).  Each disjunct block mirrors one regex of the
source list; alternations of literals become lists of substrings. -/
def memory_indicators_match (t : String) : Bool :=
  (["i will", "i" ++ apos ++ "ll", "i am going to"].any fun a =>
     ["remember", "not forget", "keep in mind"].any fun b =>
       containsSub t (a ++ " " ++ b)) ||
  containsSub t ("don" ++ apos ++ "t forget") || containsSub t "do not forget" ||
  containsSub t "this is important" ||
  containsSub t ("that" ++ apos ++ "s important") ||
  containsSub t "promise" || containsSub t "i promise" ||
  containsSub t "always " || containsSub t "never " ||
  containsSub t "must remember" || containsSub t "must not forget" ||
  containsSub t "must keep in mind"

/-- The `personal_patterns` family of the extractor (on the lowercased
sentence). -/
def personal_info_match (t : String) : Bool :=
  (["name", "age", "birthday", "address", "phone", "email"].any fun w =>
     containsSub t ("my " ++ w)) ||
  (["am", "was"].any fun v => ["born", "from", "raised"].any fun w =>
     containsSub t ("i " ++ v ++ " " ++ w)) ||
  containsSub t "i work at" || containsSub t "i study at" ||
  containsSub t "i live" || containsSub t "i live in" ||
  containsSub t "my favorite" || containsSub t "my least favorite" ||
  (["like", "love", "hate", "enjoy", "dislike", "prefer"].any fun w =>
     containsSub t ("i " ++ w)) ||
  (["afraid of", "scared of", "worried about"].any fun w =>
     containsSub t ("i am " ++ w)) ||
  iHaveAt t.data

/-- The `intention_patterns` family (on the lowercased sentence). -/
def intention_match (t : String) : Bool :=
  (["will", "would like to", "plan to", "intend to"].any fun w =>
     containsSub t ("i " ++ w)) ||
  containsSub t "going to " || containsSub t "in the future"

/-- The `memories` list built by the main loop of
`extract_auto_memories`: split into sentences, strip, keep nonempty
sentences of length 10..200 that match some family. -/
def autoCandidates (text : String) : List String :=
  (splitSentences text).filterMap fun sent =>
    let sentence := stripStr sent
    if sentence.length = 0 then none
    else if sentence.length < 10 || 200 < sentence.length then none
    else
      let t := lowerStr sentence
      if memory_indicators_match t || personal_info_match t || intention_match t
      then some sentence else none

/-- Does a candidate match the explicit-memory family (the predicate of
the `explicit_memories` comprehension)? -/
def isExplicitMem (s : String) : Bool := memory_indicators_match (lowerStr s)

/-- `extract_auto_memories`: candidates partitioned into explicit ones
and the rest (the source tests `m not in explicit_memories`); result is
the first two explicit candidates, padded from the rest up to two. -/
def extract_auto_memories (text : String) : List String :=
  let memories := autoCandidates text
  let explicit_memories := memories.filter isExplicitMem
  let other_memories := memories.filter (fun m => !(explicit_memories.contains m))
  let result := explicit_memories.take 2
  if result.length < 2 then result ++ other_memories.take (2 - result.length)
  else result

/-! ## Theorems -/

/-- Computation rule for `_calculate_importance` (shared helper). -/
lemma calculate_importance_eq (text : String) :
    _calculate_importance text =
      min (5 + 2 * ((important_keywords.filter (containsSub (lowerStr text))).length : Int)
        + ((personal_patterns.filter (containsSub (lowerStr text))).length : Int)) 10 := rfl

/-- C5: the importance score is a pure function of the text and the
fixed tables: base 5, +2 per critical keyword present as a
case-insensitive substring, +1 per personal-disclosure pattern that
matches, clamped to [1,10]; the result always lies in [1,10].  (The
source writes only the upper cap `min(importance, 10)`; since the raw
score is at least 5, that agrees with the full clamp.) -/
theorem importance_is_clamped_score (text : String) :
    _calculate_importance text =
      max 1 (min (5 + 2 * ((important_keywords.filter (containsSub (lowerStr text))).length : Int)
        + ((personal_patterns.filter (containsSub (lowerStr text))).length : Int)) 10) ∧
    1 ≤ _calculate_importance text ∧ _calculate_importance text ≤ 10 := by
  rw [calculate_importance_eq]
  omega

/-- C9: the importance score always lies in [5,10]: scoring starts at
base 5 and is only incremented before the cap at 10, so a lower clamp
at 1 would be unreachable. -/
theorem importance_between_five_and_ten (text : String) :
    5 ≤ _calculate_importance text ∧ _calculate_importance text ≤ 10 := by
  rw [calculate_importance_eq]
  omega

/-- C8: `rewind_last_exchange` succeeds iff the history holds at least
3 messages, in which case it removes exactly the last two messages and
decrements the turn counter; with fewer than 3 messages it fails and
leaves the state unchanged. -/
theorem rewind_last_exchange_spec (st : ConvState) :
    ((rewind_last_exchange st).1 = true ↔ 3 ≤ st.messages.length) ∧
    (3 ≤ st.messages.length →
      (rewind_last_exchange st).2.messages = st.messages.take (st.messages.length - 2) ∧
      (rewind_last_exchange st).2.turn_count = st.turn_count - 1 ∧
      (rewind_last_exchange st).2.system_prompt = st.system_prompt ∧
      (rewind_last_exchange st).2.conversation_summary = st.conversation_summary) ∧
    (st.messages.length < 3 →
      (rewind_last_exchange st).1 = false ∧ (rewind_last_exchange st).2 = st) := by
  refine ⟨?_, ?_, ?_⟩
  · unfold rewind_last_exchange
    by_cases h : st.messages.length < 3
    · simp only [if_pos h]
      constructor
      · intro hf; exact absurd hf (by decide)
      · intro h3; omega
    · simp only [if_neg h]
      exact ⟨fun _ => by omega, fun _ => by trivial⟩
  · intro h3
    have h : ¬ st.messages.length < 3 := by omega
    unfold rewind_last_exchange
    simp only [if_neg h]
    refine ⟨?_, by trivial, by trivial, by trivial⟩
    show st.messages.dropLast.dropLast = _
    rw [List.dropLast_eq_take, List.dropLast_eq_take, List.length_take, List.take_take]
    congr 1
    omega
  · intro hlt
    unfold rewind_last_exchange
    simp only [if_pos hlt]
    exact ⟨by trivial, by trivial⟩

/-- Concrete three-message conversation state (system + one exchange),
used as the witness input for the rewind contract. -/
def stW3 : ConvState :=
  { system_prompt := "sys"
    messages := [⟨"system", "sys"⟩, ⟨"user", "hello"⟩, ⟨"assistant", "hi"⟩]
    conversation_summary := ""
    turn_count := 2 }

/-- Witness for C8: rewinding the 3-message history succeeds and
leaves exactly the system message. -/
theorem rewind_last_exchange_witness :
    (rewind_last_exchange stW3).1 = true ∧
    (rewind_last_exchange stW3).2.messages = [⟨"system", "sys"⟩] := by
  have h := rewind_last_exchange_spec stW3
  refine ⟨h.1.mpr (by decide), ?_⟩
  rw [(h.2.1 (by decide)).1]
  decide

/-- Two well-formed records of equal importance with distinct
timestamps (the earlier one first alphabetically, i.e. the older). -/
def rOld : MemRecord := ⟨"2024-01-01T00:00:00", "old note", [], 5⟩

/-- The more recent of the two records. -/
def rNew : MemRecord := ⟨"2024-01-02T00:00:00", "new note", [], 5⟩

/-- C1: at the failing input — two records of equal importance —
`load_all_memories` returns the OLDER record first: the sort key
`(-importance, ts)` orders equal-importance records by timestamp
ascending, although the source's own comment ("Sort by importance
(descending) and then by timestamp (descending)") and the spec demand
most-recent-first. -/
theorem load_all_memories_ties_oldest_first :
    load_all_memories [LogLine.good rNew, LogLine.good rOld] = [rOld, rNew] := by
  decide

/-- C2: at the failing input — one well-formed record followed by one
malformed line — `load_all_memories` returns `[]`: the whole parse
comprehension raises on the malformed line and the handler discards
everything, instead of skipping just that line (contrast: the same log
without the malformed line loads the record). -/
theorem load_all_memories_discards_all_on_malformed :
    load_all_memories [LogLine.good rOld, LogLine.bad] = [] ∧
    load_all_memories [LogLine.good rOld] = [rOld] := by
  exact ⟨by decide, by decide⟩

/-- Counterexample to C3: after a failed completion call the
conversation state does NOT equal the pre-turn state — the turn
counter was incremented by the `add_message` call and is never rolled
back. -/
theorem processTurnFailure_not_noop :
    processTurnFailure (ConvState.init "sys") "hi" ≠ ConvState.init "sys" := by
  decide

/-- C3 (amended): if the append does not trigger window compaction
(at most 49 messages beforehand), the failure path restores the
message list, summary and prompt exactly — but the turn counter is
left incremented by one, so the turn is not a complete no-op. -/
theorem processTurnFailure_rolls_back_messages (st : ConvState) (payload : String)
    (h : st.messages.length ≤ 49) :
    (processTurnFailure st payload).messages = st.messages ∧
    (processTurnFailure st payload).turn_count = st.turn_count + 1 ∧
    (processTurnFailure st payload).conversation_summary = st.conversation_summary ∧
    (processTurnFailure st payload).system_prompt = st.system_prompt := by
  have hc : ¬ ((st.messages ++ [(⟨"user", payload⟩ : Message)]).length > 50) := by
    simp only [List.length_append, List.length_cons, List.length_nil]
    omega
  unfold processTurnFailure add_message
  simp only [if_neg hc]
  exact ⟨List.dropLast_concat, by trivial, by trivial, by trivial⟩

/-- Witness for the amended C3 at a concrete one-message state. -/
theorem processTurnFailure_rolls_back_messages_witness :
    (ConvState.init "sys").messages.length ≤ 49 ∧
    ((processTurnFailure (ConvState.init "sys") "hi").messages =
        (ConvState.init "sys").messages ∧
      (processTurnFailure (ConvState.init "sys") "hi").turn_count =
        (ConvState.init "sys").turn_count + 1 ∧
      (processTurnFailure (ConvState.init "sys") "hi").conversation_summary =
        (ConvState.init "sys").conversation_summary ∧
      (processTurnFailure (ConvState.init "sys") "hi").system_prompt =
        (ConvState.init "sys").system_prompt) :=
  ⟨by decide, processTurnFailure_rolls_back_messages (ConvState.init "sys") "hi" (by decide)⟩

/-- Computation of `_summarize_old_messages` on a nonempty list with at
least 30 trailing messages: the slice `messages[1:-20]` is nonempty, so
the result is head, synthetic summary, last 20 messages (shared
helper). -/
lemma summarize_cons_spec (m0 : Message) (rest : List Message) (summary : String)
    (h : 30 ≤ rest.length) :
    _summarize_old_messages (m0 :: rest) summary =
      (m0 :: ⟨"system", "Earlier in the conversation: " ++
          summaryText (rest.take (rest.length - 20))⟩ ::
        (m0 :: rest).drop ((m0 :: rest).length - 20),
       summaryText (rest.take (rest.length - 20))) := by
  have hold : ((m0 :: rest).drop 1).take ((m0 :: rest).length - 21) =
      rest.take (rest.length - 20) := by
    simp only [List.drop_succ_cons, List.drop_zero, List.length_cons]
    congr 1
  have hne : ¬ ((rest.take (rest.length - 20)).isEmpty = true) := by
    rw [List.isEmpty_iff]
    intro hnil
    have := congrArg List.length hnil
    simp only [List.length_take, List.length_nil] at this
    omega
  simp only [_summarize_old_messages]
  rw [hold, if_neg hne]

/-- C4: whenever `add_message` makes the message list exceed 50
entries, it is immediately compacted to exactly 22 messages: the
previous head (the system prompt) stays at index 0, index 1 holds one
synthetic system summary message, and the rest are the last 20
messages of the appended list verbatim; the turn counter still
increments. -/
theorem add_message_compacts (st : ConvState) (role content : String)
    (h : 50 ≤ st.messages.length) :
    (add_message st role content).messages.length = 22 ∧
    (add_message st role content).messages.head? = st.messages.head? ∧
    (∃ s, (add_message st role content).messages.get? 1 =
      some ⟨"system", "Earlier in the conversation: " ++ s⟩) ∧
    (add_message st role content).messages.drop 2 =
      (st.messages ++ [(⟨role, content⟩ : Message)]).drop (st.messages.length + 1 - 20) ∧
    (add_message st role content).turn_count = st.turn_count + 1 := by
  obtain ⟨a, as, hst⟩ : ∃ a as, st.messages = a :: as := by
    cases hm : st.messages with
    | nil => rw [hm] at h; simp at h
    | cons a as => exact ⟨a, as, rfl⟩
  have hlen : st.messages.length = as.length + 1 := by rw [hst]; rfl
  have hcond : (st.messages ++ [(⟨role, content⟩ : Message)]).length > 50 := by
    simp only [List.length_append, List.length_cons, List.length_nil]
    omega
  have hsm := summarize_cons_spec a (as ++ [(⟨role, content⟩ : Message)])
    st.conversation_summary (by simp; omega)
  unfold add_message
  simp only [if_pos hcond]
  rw [hst]
  have hrw : (a :: as) ++ [(⟨role, content⟩ : Message)] =
      a :: (as ++ [(⟨role, content⟩ : Message)]) := rfl
  rw [hrw, hsm]
  refine ⟨?_, ?_, ?_, ?_, ?_⟩
  · simp only [List.length_cons, List.length_drop, List.length_append,
      List.length_nil]
    omega
  · rfl
  · exact ⟨summaryText ((as ++ [(⟨role, content⟩ : Message)]).take
      ((as ++ [(⟨role, content⟩ : Message)]).length - 20)), rfl⟩
  · show (a :: (as ++ [(⟨role, content⟩ : Message)])).drop
        ((a :: (as ++ [(⟨role, content⟩ : Message)])).length - 20) =
      (a :: (as ++ [(⟨role, content⟩ : Message)])).drop ((a :: as).length + 1 - 20)
    congr 1
    simp
  · trivial

/-- Concrete 51-message conversation state (system + 50) for the
compaction witness. -/
def stBig : ConvState :=
  { system_prompt := "sys"
    messages := ⟨"system", "sys"⟩ :: List.replicate 50 ⟨"user", "hello"⟩
    conversation_summary := ""
    turn_count := 51 }

/-- Witness for C4: the 52nd `add_message` call on a 51-message state
leaves exactly 22 messages in the stated shape. -/
theorem add_message_compacts_witness :
    50 ≤ stBig.messages.length ∧
    ((add_message stBig "user" "next").messages.length = 22 ∧
      (add_message stBig "user" "next").messages.head? = stBig.messages.head? ∧
      (∃ s, (add_message stBig "user" "next").messages.get? 1 =
        some ⟨"system", "Earlier in the conversation: " ++ s⟩) ∧
      (add_message stBig "user" "next").messages.drop 2 =
        (stBig.messages ++ [(⟨"user", "next"⟩ : Message)]).drop
          (stBig.messages.length + 1 - 20) ∧
      (add_message stBig "user" "next").turn_count = stBig.turn_count + 1) :=
  ⟨by decide, add_message_compacts stBig "user" "next" (by decide)⟩

/-- Concrete 49-message conversation state: appending one exchange to
it triggers compaction, so rewinding afterwards cannot restore it. -/
def st49 : ConvState :=
  { system_prompt := "sys"
    messages := ⟨"system", "sys"⟩ :: List.replicate 48 ⟨"user", "x"⟩
    conversation_summary := ""
    turn_count := 48 }

/-- Counterexample to C10 as stated: on a 49-message history (at least
3 messages), adding a user+assistant exchange and rewinding does NOT
restore the message list — the second append pushes the length to 51,
compaction fires, and rewind then pops from the compacted list. -/
theorem exchange_then_rewind_not_restore :
    (rewind_last_exchange
        (add_message (add_message st49 "user" "u") "assistant" "a")).2.messages ≠
      st49.messages := by
  decide

/-- C10 (amended): a user+assistant exchange increments the turn
counter by 2 but `rewind_last_exchange` decrements it by only 1; for
every history with at least 3 and at most 48 messages (so that the
appends do not trigger compaction), adding an exchange and rewinding
restores the message list, reports success, and leaves the turn
counter one greater — which can only shrink (never grow) the
memory-context limit computed from it. -/
theorem exchange_then_rewind_spec (st : ConvState) (u a : String)
    (h3 : 3 ≤ st.messages.length) (hlen : st.messages.length ≤ 48) :
    (rewind_last_exchange
        (add_message (add_message st "user" u) "assistant" a)).1 = true ∧
    (rewind_last_exchange
        (add_message (add_message st "user" u) "assistant" a)).2.messages =
      st.messages ∧
    (rewind_last_exchange
        (add_message (add_message st "user" u) "assistant" a)).2.turn_count =
      st.turn_count + 1 ∧
    memory_limit (st.turn_count + 1) ≤ memory_limit st.turn_count := by
  have hc1 : ¬ ((st.messages ++ [(⟨"user", u⟩ : Message)]).length > 50) := by
    simp only [List.length_append, List.length_cons, List.length_nil]
    omega
  have hst1 : add_message st "user" u =
      { st with messages := st.messages ++ [(⟨"user", u⟩ : Message)]
                turn_count := st.turn_count + 1 } := by
    unfold add_message
    simp only [if_neg hc1]
  have hc2 : ¬ (((st.messages ++ [(⟨"user", u⟩ : Message)]) ++
      [(⟨"assistant", a⟩ : Message)]).length > 50) := by
    simp only [List.length_append, List.length_cons, List.length_nil]
    omega
  have hst2 : add_message (add_message st "user" u) "assistant" a =
      { st with messages := (st.messages ++ [(⟨"user", u⟩ : Message)]) ++
                  [(⟨"assistant", a⟩ : Message)]
                turn_count := st.turn_count + 1 + 1 } := by
    rw [hst1]
    unfold add_message
    simp only [if_neg hc2]
  have hc3 : ¬ (((st.messages ++ [(⟨"user", u⟩ : Message)]) ++
      [(⟨"assistant", a⟩ : Message)]).length < 3) := by
    simp only [List.length_append, List.length_cons, List.length_nil]
    omega
  rw [hst2]
  unfold rewind_last_exchange
  simp only [if_neg hc3]
  refine ⟨by trivial, ?_, ?_, ?_⟩
  · show ((st.messages ++ [(⟨"user", u⟩ : Message)]) ++
        [(⟨"assistant", a⟩ : Message)]).dropLast.dropLast = st.messages
    rw [List.dropLast_concat, List.dropLast_concat]
  · show st.turn_count + 1 + 1 - 1 = st.turn_count + 1
    omega
  · unfold memory_limit
    rw [Int.fdiv_eq_ediv _ (by norm_num), Int.fdiv_eq_ediv _ (by norm_num)]
    omega

/-- Witness for the amended C10 at the concrete 3-message state. -/
theorem exchange_then_rewind_spec_witness :
    (3 ≤ stW3.messages.length ∧ stW3.messages.length ≤ 48) ∧
    ((rewind_last_exchange
        (add_message (add_message stW3 "user" "uu") "assistant" "aa")).1 = true ∧
     (rewind_last_exchange
        (add_message (add_message stW3 "user" "uu") "assistant" "aa")).2.messages =
       stW3.messages ∧
     (rewind_last_exchange
        (add_message (add_message stW3 "user" "uu") "assistant" "aa")).2.turn_count =
       stW3.turn_count + 1 ∧
     memory_limit (stW3.turn_count + 1) ≤ memory_limit stW3.turn_count) :=
  ⟨⟨by decide, by decide⟩,
    exchange_then_rewind_spec stW3 "uu" "aa" (by decide) (by decide)⟩

/-- Membership in a filtered list and being kept by the predicate
coincide, so the source's `m not in explicit_memories` test (list
membership) equals the predicate's negation on candidates (shared
helper). -/
lemma filter_not_contains_eq (l : List String) (p : String → Bool) :
    l.filter (fun m => !((l.filter p).contains m)) = l.filter (fun m => !(p m)) := by
  apply List.filter_congr
  intro m hm
  have hc : ((l.filter p).contains m) = p m := by
    by_cases hp : p m = true
    · rw [hp]
      exact List.elem_eq_true_of_mem (List.mem_filter.mpr ⟨hm, hp⟩)
    · have hb : p m = false := by simpa using hp
      rw [hb]
      have hnm : m ∉ l.filter p := fun hmem => hp (List.mem_filter.mp hmem).2
      exact Bool.eq_false_iff.mpr (fun hcon => hnm (List.mem_of_elem_eq_true hcon))
  rw [hc]

/-- Response text with five qualifying sentences, one of them the
explicit-memory sentence about Paris. -/
def parisText : String :=
  "My name is Kay. I live in Oslo today. I will remember that you live in Paris. I plan to visit museums soon. I love long walks outside."

/-- C6: the extractor returns at most 2 sentences — the first 2
candidates matching an explicit-memory cue, padded with the remaining
(personal-disclosure or future-intention) candidates in original order
up to a total of 2; on the concrete response containing "I will
remember that you live in Paris." (which has 5 qualifying sentences)
the result includes that sentence and still has at most 2 items. -/
theorem extract_auto_memories_spec (text : String) :
    (extract_auto_memories text).length ≤ 2 ∧
    extract_auto_memories text =
      ((autoCandidates text).filter isExplicitMem).take 2 ++
        ((autoCandidates text).filter (fun m => !(isExplicitMem m))).take
          (2 - (((autoCandidates text).filter isExplicitMem).take 2).length) ∧
    (autoCandidates parisText).length = 5 ∧
    "I will remember that you live in Paris." ∈ extract_auto_memories parisText ∧
    (extract_auto_memories parisText).length ≤ 2 := by
  have hstruct : ∀ t : String, extract_auto_memories t =
      ((autoCandidates t).filter isExplicitMem).take 2 ++
        ((autoCandidates t).filter (fun m => !(isExplicitMem m))).take
          (2 - (((autoCandidates t).filter isExplicitMem).take 2).length) := by
    intro t
    simp only [extract_auto_memories]
    rw [filter_not_contains_eq]
    by_cases hlt : (((autoCandidates t).filter isExplicitMem).take 2).length < 2
    · rw [if_pos hlt]
    · rw [if_neg hlt]
      have hmin := List.length_take 2 ((autoCandidates t).filter isExplicitMem)
      have h2 : (((autoCandidates t).filter isExplicitMem).take 2).length = 2 := by
        omega
      rw [h2]
      simp
  have hlen : ∀ t : String, (extract_auto_memories t).length ≤ 2 := by
    intro t
    rw [hstruct t]
    simp only [List.length_append, List.length_take]
    omega
  refine ⟨hlen text, hstruct text, by decide, by decide, hlen parisText⟩

/-- `Char.ofNat` round-trips on valid code points (shared helper). -/
lemma char_toNat_ofNat_valid (n : Nat) (h : Char.isValidCharNat n) :
    (Char.ofNat n).toNat = n := by
  rw [Char.ofNat, dif_pos h]
  rfl

/-- ASCII lowercasing is idempotent (shared helper). -/
lemma toLower_toLower (c : Char) : c.toLower.toLower = c.toLower := by
  simp only [Char.toLower]
  by_cases h : 65 ≤ c.toNat ∧ c.toNat ≤ 90
  · rw [if_pos h]
    have hv : Char.isValidCharNat (c.toNat + 32) := Or.inl (by omega)
    have ht : (Char.ofNat (c.toNat + 32)).toNat = c.toNat + 32 :=
      char_toNat_ofNat_valid _ hv
    rw [if_neg]
    rw [ht]
    omega
  · rw [if_neg h, if_neg h]

/-- Runs produced by `wordRunsAux` are nonempty and consist of word
characters drawn from the accumulator or the remaining input (shared
helper). -/
lemma wordRunsAux_runs (src : List Char) :
    ∀ (l cur : List Char),
      (∀ c ∈ cur, isWordChar c = true ∧ c ∈ src) →
      (∀ c ∈ l, c ∈ src) →
      ∀ r ∈ wordRunsAux cur l, r ≠ [] ∧ ∀ c ∈ r, isWordChar c = true ∧ c ∈ src := by
  intro l
  induction l with
  | nil =>
    intro cur hcur _ r hr
    unfold wordRunsAux at hr
    by_cases hc : cur.isEmpty
    · rw [if_pos hc] at hr
      simp at hr
    · rw [if_neg hc] at hr
      simp only [List.mem_singleton] at hr
      subst hr
      have hcn : cur ≠ [] := by simpa [List.isEmpty_iff] using hc
      refine ⟨by simpa using hcn, fun c hcr => hcur c (List.mem_reverse.mp hcr)⟩
  | cons c cs ih =>
    intro cur hcur hl r hr
    unfold wordRunsAux at hr
    by_cases hwc : isWordChar c
    · rw [if_pos hwc] at hr
      refine ih (c :: cur) ?_ (fun d hd => hl d (List.mem_cons_of_mem _ hd)) r hr
      intro d hd
      rcases List.mem_cons.mp hd with h1 | h2
      · rw [h1]
        exact ⟨hwc, hl c (List.mem_cons_self _ _)⟩
      · exact hcur d h2
    · rw [if_neg hwc] at hr
      by_cases hc : cur.isEmpty
      · rw [if_pos hc] at hr
        exact ih [] (by simp) (fun d hd => hl d (List.mem_cons_of_mem _ hd)) r hr
      · rw [if_neg hc] at hr
        rcases List.mem_cons.mp hr with h1 | h2
        · subst h1
          have hcn : cur ≠ [] := by simpa [List.isEmpty_iff] using hc
          exact ⟨by simpa using hcn, fun d hd => hcur d (List.mem_reverse.mp hd)⟩
        · exact ih [] (by simp) (fun d hd => hl d (List.mem_cons_of_mem _ hd)) r h2

/-- Every ≥4-letter token of a string is nonempty, has length at least
4, and consists of word characters of that string (shared helper). -/
lemma mem_wordsGE4 (s w : String) (hw : w ∈ wordsGE4 s) :
    w.data ≠ [] ∧ 4 ≤ w.data.length ∧
      ∀ c ∈ w.data, isWordChar c = true ∧ c ∈ s.data := by
  unfold wordsGE4 at hw
  rcases List.mem_map.mp hw with ⟨r, hrmem, hrw⟩
  rcases List.mem_filter.mp hrmem with ⟨hrraw, hlen⟩
  have h := wordRunsAux_runs s.data s.data [] (by simp) (fun c hc => hc) r hrraw
  have hdata : w.data = r := by rw [← hrw]
  rw [hdata]
  exact ⟨h.1, by simpa using hlen, h.2⟩

/-- A token whose characters all come from a lowercased string is
fixed by lowercasing (shared helper). -/
lemma lowerStr_fixed (s w : String)
    (hw : ∀ c ∈ w.data, c ∈ (lowerStr s).data) : lowerStr w = w := by
  have hmap : w.data.map Char.toLower = w.data := by
    have hfix : ∀ c ∈ w.data, Char.toLower c = c := by
      intro c hc
      have hm : c ∈ s.data.map Char.toLower := by
        simpa [lowerStr] using hw c hc
      rcases List.mem_map.mp hm with ⟨d, _, hd⟩
      rw [← hd, toLower_toLower]
    calc w.data.map Char.toLower = w.data.map id := List.map_congr_left hfix
      _ = w.data := List.map_id _
  unfold lowerStr
  exact congrArg String.mk hmap

/-- Tokenizing a string that is itself one ≥4-letter word yields
exactly that word (shared helper). -/
lemma wordsGE4_single (w : String) (hne : w.data ≠ [])
    (h4 : 4 ≤ w.data.length) (hchars : ∀ c ∈ w.data, isWordChar c = true) :
    wordsGE4 w = [w] := by
  have haux : ∀ (l cur : List Char), (∀ c ∈ l, isWordChar c = true) →
      wordRunsAux cur l =
        if (cur ++ l).isEmpty then [] else [cur.reverse ++ l] := by
    intro l
    induction l with
    | nil =>
      intro cur _
      unfold wordRunsAux
      simp
    | cons c cs ih =>
      intro cur hl
      unfold wordRunsAux
      rw [if_pos (hl c (List.mem_cons_self _ _)),
        ih (c :: cur) (fun d hd => hl d (List.mem_cons_of_mem _ hd))]
      simp
  unfold wordsGE4
  rw [haux w.data [] hchars, if_neg (by simpa using hne)]
  simp only [List.reverse_nil, List.nil_append, List.filter_cons,
    List.filter_nil, decide_eq_true h4, if_pos]
  simp

/-- Membership through the dedup fold (shared helper). -/
lemma foldl_dedup_mem (xs : List String) :
    ∀ (acc : List String) (a : String),
      a ∈ xs.foldl (fun acc x => if x ∈ acc then acc else acc ++ [x]) acc ↔
        a ∈ acc ∨ a ∈ xs := by
  induction xs with
  | nil =>
    intro acc a
    simp
  | cons x xs ih =>
    intro acc a
    rw [List.foldl_cons, ih]
    by_cases hx : x ∈ acc
    · rw [if_pos hx]
      constructor
      · rintro (h | h)
        · exact Or.inl h
        · exact Or.inr (List.mem_cons_of_mem _ h)
      · rintro (h | h)
        · exact Or.inl h
        · rcases List.mem_cons.mp h with h1 | h2
          · exact Or.inl (h1 ▸ hx)
          · exact Or.inr h2
    · rw [if_neg hx]
      simp only [List.mem_append, List.mem_singleton, List.mem_cons]
      tauto

/-- Deduplication preserves membership (shared helper). -/
lemma mem_dedupList {xs : List String} {a : String} :
    a ∈ dedupList xs ↔ a ∈ xs := by
  unfold dedupList
  rw [foldl_dedup_mem]
  simp

/-- The dedup fold yields a duplicate-free list (shared helper). -/
lemma foldl_dedup_nodup (xs : List String) :
    ∀ acc : List String, acc.Nodup →
      (xs.foldl (fun acc x => if x ∈ acc then acc else acc ++ [x]) acc).Nodup := by
  induction xs with
  | nil =>
    intro acc h
    exact h
  | cons x xs ih =>
    intro acc h
    rw [List.foldl_cons]
    by_cases hx : x ∈ acc
    · rw [if_pos hx]
      exact ih acc h
    · rw [if_neg hx]
      refine ih _ ?_
      simp [List.nodup_append, h, hx]

/-- `dedupList` yields a duplicate-free list (shared helper). -/
lemma nodup_dedupList (xs : List String) : (dedupList xs).Nodup :=
  foldl_dedup_nodup xs [] List.nodup_nil

/-- A singleton deduplicates to itself (shared helper). -/
lemma dedupList_single (w : String) : dedupList [w] = [w] := by
  simp [dedupList]

/-- Appending one element to the input of `dedupList` (shared
helper). -/
lemma dedupList_append_single (xs : List String) (a : String) :
    dedupList (xs ++ [a]) =
      if a ∈ dedupList xs then dedupList xs else dedupList xs ++ [a] := by
  unfold dedupList
  rw [List.foldl_append]
  rfl

/-- Rebuilding the index after appending one indexable record extends
the entry of each of its words by its timestamp (shared helper). -/
lemma keywords_index_append_good (log : List LogLine) (r : MemRecord) (w : String)
    (hok : r.ts ≠ "" ∧ w ∈ wordsGE4 (lowerStr r.note))
    (hnew : r.ts ∉ log.filterMap (lineTs w)) :
    keywords_index (log ++ [LogLine.good r]) w = keywords_index log w ++ [r.ts] := by
  unfold keywords_index
  rw [List.filterMap_append]
  have hone : [LogLine.good r].filterMap (lineTs w) = [r.ts] := by
    simp [lineTs, hok]
  rw [hone, dedupList_append_single, if_neg (fun hmem => hnew (mem_dedupList.mp hmem))]

/-- Folding `bumpScore` over fresh, duplicate-free timestamps appends
score-1 entries (shared helper). -/
lemma foldl_bumpScore_fresh :
    ∀ (l : List String) (acc : List (String × Nat)), l.Nodup →
      (∀ x ∈ l, ∀ p ∈ acc, p.1 ≠ x) →
      l.foldl bumpScore acc = acc ++ l.map (fun ts => (ts, 1)) := by
  intro l
  induction l with
  | nil =>
    intro acc _ _
    simp
  | cons x xs ih =>
    intro acc hnd hfr
    rw [List.foldl_cons]
    have hany : acc.any (fun p => p.1 == x) = false := by
      rw [List.any_eq_false]
      intro p hp
      simpa using hfr x (List.mem_cons_self _ _) p hp
    have hbump : bumpScore acc x = acc ++ [(x, 1)] := by
      unfold bumpScore
      rw [hany]
      simp
    rw [hbump, ih (acc ++ [(x, 1)]) (List.Nodup.of_cons hnd) ?_]
    · simp
    · intro y hy p hp
      rcases List.mem_append.mp hp with h1 | h2
      · exact hfr y (List.mem_cons_of_mem _ hy) p h1
      · have hpx : p = (x, 1) := by simpa using h2
        rw [hpx]
        show x ≠ y
        intro hxy
        exact (List.nodup_cons.mp hnd).1 (hxy ▸ hy)

/-- For a single-token query the score table is the index entry of
that token, each with score 1 (shared helper). -/
lemma memory_scores_single (log : List LogLine) (w : String)
    (hq : dedupList (wordsGE4 (lowerStr w)) = [w]) :
    memory_scores log w = (keywords_index log w).map (fun ts => (ts, 1)) := by
  unfold memory_scores
  rw [hq]
  rw [List.foldl_cons, List.foldl_nil]
  have hnd : (keywords_index log w).Nodup := nodup_dedupList _
  rw [foldl_bumpScore_fresh (keywords_index log w) [] hnd (by simp)]
  simp

/-- The records of the well-formed lines of a log, in order (shared
helper). -/
def goodRecords (log : List LogLine) : List MemRecord :=
  log.filterMap (fun l => match l with
    | LogLine.good r => some r
    | _ => none)

/-- Without malformed lines the parse comprehension succeeds and
yields the well-formed records in order (shared helper). -/
lemma parseAllLines_eq_goodRecords (log : List LogLine)
    (h : LogLine.bad ∉ log) :
    parseAllLines log = some (goodRecords log) := by
  induction log with
  | nil => rfl
  | cons l ls ih =>
    have hls : LogLine.bad ∉ ls := fun hh => h (List.mem_cons_of_mem _ hh)
    cases l with
    | good r =>
      simp [parseAllLines, goodRecords, List.filterMap_cons, ih hls]
    | bad => exact absurd (List.mem_cons_self _ _) h
    | blank =>
      simp [parseAllLines, goodRecords, List.filterMap_cons]
      exact ih hls

/-- Loading after appending one well-formed record to a log free of
malformed lines sorts the good records plus the new one (shared
helper). -/
lemma load_all_append_good (log : List LogLine) (r : MemRecord)
    (h : LogLine.bad ∉ log) :
    load_all_memories (log ++ [LogLine.good r]) =
      (goodRecords log ++ [r]).insertionSort memKeyLe := by
  have hnb : LogLine.bad ∉ log ++ [LogLine.good r] := by
    intro hmem
    rcases List.mem_append.mp hmem with h1 | h2
    · exact h h1
    · simp at h2
  unfold load_all_memories
  rw [parseAllLines_eq_goodRecords _ hnb]
  have : goodRecords (log ++ [LogLine.good r]) = goodRecords log ++ [r] := by
    unfold goodRecords
    rw [List.filterMap_append]
    rfl
  rw [this]

/-- If exactly one record carries a timestamp, the ts→record map
resolves it after sorting (shared helper). -/
lemma memLookup_of_unique (l : List MemRecord) (r : MemRecord)
    (hl : l.filter (fun m => m.ts == r.ts) = [r]) :
    memLookup (l.insertionSort memKeyLe) r.ts = some r := by
  unfold memLookup
  have hp : List.Perm ((l.insertionSort memKeyLe).filter (fun m => m.ts == r.ts))
      (l.filter (fun m => m.ts == r.ts)) :=
    (List.perm_insertionSort memKeyLe l).filter _
  rw [hl] at hp
  rw [List.perm_singleton.mp hp]
  rfl

/-- C7 (amended): appending a note with a fresh nonempty timestamp to
a log free of malformed lines, then searching with any of the note's
≥4-letter words, returns a result containing that memory — provided at
most 5 records (the default search limit) contain the word.  (Without
that bound the appended record can be cut off by the limit, and a
malformed line empties the ts→record map; see the counterexample.) -/
theorem append_then_search_finds (log : List LogLine) (now text : String)
    (tags : List String) (w : String)
    (hw : w ∈ wordsGE4 (lowerStr (stripStr text)))
    (hts : now ≠ "")
    (huniq : ∀ r : MemRecord, LogLine.good r ∈ log → r.ts ≠ now)
    (hnobad : LogLine.bad ∉ log)
    (hfew : (keywords_index (append_memory log now text tags) w).length ≤ 5) :
    (⟨now, stripStr text, tags, _calculate_importance text⟩ : MemRecord) ∈
      search_memories (append_memory log now text tags) w 5 := by
  set newRec : MemRecord :=
    ⟨now, stripStr text, tags, _calculate_importance text⟩ with hnewRec
  have hlog : append_memory log now text tags = log ++ [LogLine.good newRec] := rfl
  rw [hlog] at hfew ⊢
  -- the query tokenizes to exactly [w]
  have hWc := mem_wordsGE4 _ _ hw
  have hlow : lowerStr w = w :=
    lowerStr_fixed (stripStr text) w (fun c hc => (hWc.2.2 c hc).2)
  have hsingle : dedupList (wordsGE4 (lowerStr w)) = [w] := by
    rw [hlow, wordsGE4_single w hWc.1 hWc.2.1 (fun c hc => (hWc.2.2 c hc).1)]
    exact dedupList_single w
  -- the index entry of w gains the new timestamp
  have hfresh : now ∉ log.filterMap (lineTs w) := by
    intro hmem
    rcases List.mem_filterMap.mp hmem with ⟨line, hline, hsome⟩
    cases line with
    | good r =>
      by_cases hcnd : r.ts ≠ "" ∧ w ∈ wordsGE4 (lowerStr r.note)
      · rw [lineTs, if_pos hcnd] at hsome
        exact huniq r hline (by simpa using hsome)
      · rw [lineTs, if_neg hcnd] at hsome
        simp at hsome
    | bad => simp [lineTs] at hsome
    | blank => simp [lineTs] at hsome
  have hidx : keywords_index (log ++ [LogLine.good newRec]) w =
      keywords_index log w ++ [now] :=
    keywords_index_append_good log newRec w ⟨hts, hw⟩ hfresh
  -- scores: every indexed timestamp once, with score 1
  have hscores : memory_scores (log ++ [LogLine.good newRec]) w =
      (keywords_index (log ++ [LogLine.good newRec]) w).map (fun ts => (ts, 1)) :=
    memory_scores_single _ w hsingle
  have hmemscore : (now, 1) ∈ memory_scores (log ++ [LogLine.good newRec]) w := by
    rw [hscores, hidx]
    exact List.mem_map.mpr ⟨now, by simp, rfl⟩
  have hslen : (memory_scores (log ++ [LogLine.good newRec]) w).length ≤ 5 := by
    rw [hscores, List.length_map]
    exact hfew
  -- the ts→record map resolves the new timestamp to the new record
  have hfilter : (goodRecords log ++ [newRec]).filter
      (fun m => m.ts == newRec.ts) = [newRec] := by
    rw [List.filter_append]
    have h1 : (goodRecords log).filter (fun m => m.ts == newRec.ts) = [] := by
      rw [List.filter_eq_nil_iff]
      intro m hm
      rcases List.mem_filterMap.mp hm with ⟨line, hline, hsome⟩
      cases line with
      | good r =>
        have hrm : r = m := by simpa using hsome
        simpa using (hrm ▸ huniq r hline)
      | bad => simp at hsome
      | blank => simp at hsome
    rw [h1]
    simp
  have hload : memLookup (load_all_memories (log ++ [LogLine.good newRec]))
      newRec.ts = some newRec := by
    rw [load_all_append_good log newRec hnobad]
    exact memLookup_of_unique _ newRec hfilter
  -- assemble: with at most 5 scored timestamps the take-5 keeps all
  have hsortlen : ((memory_scores (log ++ [LogLine.good newRec]) w).insertionSort
      scoreGe).length ≤ 5 := by
    rw [(List.perm_insertionSort scoreGe _).length_eq]
    exact hslen
  show newRec ∈ List.filterMap
    (fun p => memLookup (load_all_memories (log ++ [LogLine.good newRec])) p.1)
    (List.take 5
      (List.insertionSort scoreGe (memory_scores (log ++ [LogLine.good newRec]) w)))
  rw [List.take_of_length_le hsortlen]
  refine List.mem_filterMap.mpr ⟨(now, 1), ?_, ?_⟩
  · exact (List.perm_insertionSort scoreGe _).mem_iff.mpr hmemscore
  · exact hload

/-- Witness for the amended C7: appending "paris" to an empty log and
searching for "paris" finds it. -/
theorem append_then_search_finds_witness :
    ("paris" ∈ wordsGE4 (lowerStr (stripStr "paris")) ∧
      ("t1" : String) ≠ "" ∧
      (∀ r : MemRecord, LogLine.good r ∈ ([] : List LogLine) → r.ts ≠ "t1") ∧
      LogLine.bad ∉ ([] : List LogLine) ∧
      (keywords_index (append_memory [] "t1" "paris" []) "paris").length ≤ 5) ∧
    (⟨"t1", stripStr "paris", [], _calculate_importance "paris"⟩ : MemRecord) ∈
      search_memories (append_memory [] "t1" "paris" []) "paris" 5 :=
  ⟨⟨by decide, by decide, fun r hr => absurd hr (List.not_mem_nil (LogLine.good r)),
      List.not_mem_nil _, by decide⟩,
    append_then_search_finds [] "t1" "paris" [] "paris" (by decide) (by decide)
      (fun r hr => absurd hr (List.not_mem_nil (LogLine.good r))) (List.not_mem_nil _) (by decide)⟩

/-- Five stored memories that all contain the word "paris", with
distinct timestamps. -/
def parisLog : List LogLine :=
  [LogLine.good ⟨"2024-01-01T00:00:00", "paris note zero", [], 5⟩,
   LogLine.good ⟨"2024-01-01T00:00:01", "paris note one", [], 5⟩,
   LogLine.good ⟨"2024-01-01T00:00:02", "paris note two", [], 5⟩,
   LogLine.good ⟨"2024-01-01T00:00:03", "paris note three", [], 5⟩,
   LogLine.good ⟨"2024-01-01T00:00:04", "paris note four", [], 5⟩]

/-- Counterexample to C7 as stated: append the note "paris" (fresh
unique timestamp, one ≥4-letter word) as a sixth matching memory and
search for "paris" — the appended memory is NOT in the result, because
all six timestamps tie at score 1 and the default limit keeps only the
first 5. -/
theorem search_limit_drops_new_memory :
    (⟨"2024-01-01T00:00:05", stripStr "paris", [],
        _calculate_importance "paris"⟩ : MemRecord) ∉
      search_memories (append_memory parisLog "2024-01-01T00:00:05" "paris" [])
        "paris" 5 := by
  decide
